import Mathlib

/-!
Verification of the exam-grading pipeline (`exam_grading_system.py`).

The program's deterministic core is embedded shallowly:
* Python strings are `List Char`; Python's `str.split`, `str.strip`,
  `str.find`, `str.rfind`, slicing, `os.path.join` and `os.path.normpath`
  (POSIX) are modelled by executable Lean functions below.
* The standard-library `json` module is modelled by `json_loads`
  (a strict recursive-descent parser), `json_dumps` (compact
  serialization) and `json_dump_indent2` (`json.dump(..., indent=2)`).
  The model covers null, booleans, integer numbers, strings with the
  common short escapes, arrays and objects; floating-point numbers and
  `\uXXXX` escapes are outside the model.
* Effects (the filesystem, PyPDF2 page extraction, the reasoning
  service) are modelled by explicit oracle values passed to the
  functions that the Python code reads them through.
-/

/-! ## Python string primitives -/

/-- The whitespace characters `json.loads` skips between tokens. -/
def isJsonWs (c : Char) : Bool :=
  c = ' ' || c = '\t' || c = '\n' || c = '\r'

/-- The characters Python's no-argument `str.strip` removes
(ASCII part: space, tab, newline, carriage return, vertical tab, form feed). -/
def isStripWs (c : Char) : Bool :=
  c = ' ' || c = '\t' || c = '\n' || c = '\r' || c.toNat = 11 || c.toNat = 12

def skipWs (s : List Char) : List Char := s.dropWhile isJsonWs

/-- Python `str.strip()`. -/
def pyStrip (s : List Char) : List Char :=
  ((s.dropWhile isStripWs).reverse.dropWhile isStripWs).reverse

/-- Python `sub in s` (substring containment). -/
def pyContains (sep : List Char) : List Char → Bool
  | [] => sep.isEmpty
  | c :: rest => sep.isPrefixOf (c :: rest) || pyContains sep rest

/-- The part of `s` strictly before the first occurrence of `sep`
(all of `s` when `sep` does not occur). -/
def beforeFirst (sep : List Char) : List Char → List Char
  | [] => []
  | c :: rest => if sep.isPrefixOf (c :: rest) then [] else c :: beforeFirst sep rest

/-- The part of `s` strictly after the first occurrence of `sep`
(`[]` when `sep` does not occur). -/
def afterFirst (sep : List Char) : List Char → List Char
  | [] => []
  | c :: rest =>
    if sep.isPrefixOf (c :: rest) then (c :: rest).drop sep.length
    else afterFirst sep rest

/-- Python `s.split(sep)` for a non-empty separator: non-overlapping
occurrences, scanned left to right, empty chunks kept.  (Python raises
`ValueError` on an empty separator; this model returns `[s]` there, and
is never used with one.) -/
def pySplitAux : Nat → List Char → List Char → List (List Char)
  | 0, _, s => [s]
  | fuel + 1, sep, s =>
    if sep.isEmpty then [s]
    else if pyContains sep s then
      beforeFirst sep s :: pySplitAux fuel sep (afterFirst sep s)
    else [s]

def pySplit (sep s : List Char) : List (List Char) := pySplitAux (s.length + 1) sep s

/-- Python `s.find(c)` for a single-character needle: the index of the
first occurrence, `-1` when absent. -/
def pyFind (c : Char) : List Char → Int
  | [] => -1
  | x :: rest =>
    if x = c then 0
    else
      let i := pyFind c rest
      if i < 0 then -1 else i + 1

/-- Python `s.rfind(c)`: the index of the last occurrence, `-1` when absent. -/
def pyRfind (c : Char) : List Char → Int
  | [] => -1
  | x :: rest =>
    let i := pyRfind c rest
    if 0 ≤ i then i + 1
    else if x = c then 0 else -1

/-- Python `s[a:b]` for `0 ≤ a ≤ b`. -/
def pySlice (s : List Char) (a b : Nat) : List Char := (s.take b).drop a

/-- `os.path.join` (POSIX, two arguments). -/
def pyJoin (a b : List Char) : List Char :=
  if b.headD ' ' = '/' then b
  else if a = [] ∨ a.getLastD ' ' = '/' then a ++ b
  else a ++ '/' :: b

/-- One step of `posixpath.normpath`'s component loop. -/
def normpathStep (slashes : Nat) (acc : List (List Char)) (comp : List Char) :
    List (List Char) :=
  if comp = [] ∨ comp = ['.'] then acc
  else if comp ≠ ['.', '.'] ∨ (slashes = 0 ∧ acc = []) ∨
      (acc ≠ [] ∧ acc.getLastD [] = ['.', '.']) then acc ++ [comp]
  else if acc ≠ [] then acc.dropLast else acc

/-- `os.path.normpath` (POSIX). -/
def normpath (path : List Char) : List Char :=
  if path = [] then ['.']
  else
    let slashes : Nat :=
      if path.headD ' ' = '/' then
        if ("//".toList).isPrefixOf path ∧ ¬ ("///".toList).isPrefixOf path then 2
        else 1
      else 0
    let comps := path.splitOn '/'
    let newComps := comps.foldl (normpathStep slashes) []
    let joined := List.replicate slashes '/' ++ List.intercalate ['/'] newComps
    if joined = [] then ['.'] else joined

/-! ## The JSON value model -/

mutual
inductive Json where
  | null : Json
  | bool (b : Bool) : Json
  | num (n : Int) : Json
  | str (s : List Char) : Json
  | arr (elems : JsonList) : Json
  | obj (members : JsonObj) : Json
inductive JsonList where
  | nil : JsonList
  | cons (hd : Json) (tl : JsonList) : JsonList
inductive JsonObj where
  | nil : JsonObj
  | cons (key : List Char) (val : Json) (tl : JsonObj) : JsonObj
end

/-! Node counts, used as fuel bounds for the parser. -/

mutual
def jsonSize : Json → Nat
  | .null => 1
  | .bool _ => 1
  | .num _ => 1
  | .str _ => 1
  | .arr xs => 1 + jsonListSize xs
  | .obj kvs => 1 + jsonObjSize kvs
def jsonListSize : JsonList → Nat
  | .nil => 0
  | .cons v tl => 1 + jsonSize v + jsonListSize tl
def jsonObjSize : JsonObj → Nat
  | .nil => 0
  | .cons _ v tl => 1 + jsonSize v + jsonObjSize tl
end

/-- The opening and closing curly-bracket characters. -/
def lbrace : Char := Char.ofNat 123

def rbrace : Char := Char.ofNat 125

/-! ## JSON serialization (model of `json.dumps` / `json.dump`) -/

def digitChar (n : Nat) : Char := Char.ofNat (48 + n)

def natDigitsAux : Nat → Nat → List Char
  | 0, _ => []
  | fuel + 1, n =>
    if n < 10 then [digitChar n]
    else natDigitsAux fuel (n / 10) ++ [digitChar (n % 10)]

/-- Decimal digits of a natural number, most significant first. -/
def natDigits (n : Nat) : List Char := natDigitsAux (n + 1) n

def serNum (n : Int) : List Char :=
  if n < 0 then '-' :: natDigits n.natAbs else natDigits n.toNat

/-- String-character escaping as `json.dumps` performs it (short escapes;
`\b`, `\f` and `\uXXXX` production are outside the model). -/
def escChar (c : Char) : List Char :=
  if c = '"' then ['\\', '"']
  else if c = '\\' then ['\\', '\\']
  else if c = '\n' then ['\\', 'n']
  else if c = '\t' then ['\\', 't']
  else if c = '\r' then ['\\', 'r']
  else [c]

def escapeStr : List Char → List Char
  | [] => []
  | c :: rest => escChar c ++ escapeStr rest

def serStr (s : List Char) : List Char := '"' :: (escapeStr s ++ ['"'])

/-- Layout emitted after a bracket or item separator: a newline plus
2-space-per-level indentation in `indent=2` mode, nothing in compact mode. -/
def nlInd (b : Bool) (d : Nat) : List Char :=
  if b then '\n' :: List.replicate (2 * d) ' ' else []

/-- The space after `:` in `indent=2` mode. -/
def spc (b : Bool) : List Char := if b then [' '] else []

mutual
def serVal (b : Bool) (d : Nat) : Json → List Char
  | .null => ("null".toList)
  | .bool true => ("true".toList)
  | .bool false => ("false".toList)
  | .num n => serNum n
  | .str s => serStr s
  | .arr .nil => ['[', ']']
  | .arr (.cons v tl) =>
    '[' :: (nlInd b (d + 1) ++ serList b (d + 1) (.cons v tl) ++ nlInd b d ++ [']'])
  | .obj .nil => [lbrace, rbrace]
  | .obj (.cons k v tl) =>
    lbrace :: (nlInd b (d + 1) ++ serObj b (d + 1) (.cons k v tl) ++ nlInd b d ++ [rbrace])
def serList (b : Bool) (d : Nat) : JsonList → List Char
  | .nil => []
  | .cons v .nil => serVal b d v
  | .cons v (.cons w tl) =>
    serVal b d v ++ ',' :: (nlInd b d ++ serList b d (.cons w tl))
def serObj (b : Bool) (d : Nat) : JsonObj → List Char
  | .nil => []
  | .cons k v .nil => serStr k ++ ':' :: (spc b ++ serVal b d v)
  | .cons k v (.cons k2 w tl) =>
    serStr k ++ ':' :: (spc b ++ serVal b d v) ++
      ',' :: (nlInd b d ++ serObj b d (.cons k2 w tl))
end

/-- `json.dumps(v)` (compact separators). -/
def json_dumps (v : Json) : List Char := serVal false 0 v

/-- `json.dump(v, f, indent=2)`: the exact bytes written to the file. -/
def json_dump_indent2 (v : Json) : List Char := serVal true 0 v

/-! ## JSON parsing (model of strict `json.loads`) -/

/-- `true` when a list does not start with a decimal digit. -/
def headNotDigit : List Char → Bool
  | [] => true
  | c :: _ => !c.isDigit

def unescChar (e : Char) : Option Char :=
  if e = '"' then some '"'
  else if e = '\\' then some '\\'
  else if e = '/' then some '/'
  else if e = 'n' then some '\n'
  else if e = 't' then some '\t'
  else if e = 'r' then some '\r'
  else if e = 'b' then some (Char.ofNat 8)
  else if e = 'f' then some (Char.ofNat 12)
  else none

/-! `parseStrBody` parses the body of a string literal after its opening
quote, returning the decoded characters and the input after the closing
quote; `parseEscape` handles the character after a backslash. -/

mutual
def parseStrBody : List Char → Option (List Char × List Char)
  | [] => none
  | c :: rest =>
    if c = '"' then some ([], rest)
    else if c = '\\' then parseEscape rest
    else (parseStrBody rest).map (fun p => (c :: p.1, p.2))
def parseEscape : List Char → Option (List Char × List Char)
  | [] => none
  | e :: rest2 =>
    match unescChar e with
    | some u => (parseStrBody rest2).map (fun p => (u :: p.1, p.2))
    | none => none
end

def digitVal (c : Char) : Nat := c.toNat - 48

/-- Parse a non-empty run of decimal digits. -/
def parseDigits (s : List Char) : Option (Nat × List Char) :=
  let ds := s.takeWhile Char.isDigit
  if ds.isEmpty then none
  else some (ds.foldl (fun a c => 10 * a + digitVal c) 0, s.dropWhile Char.isDigit)

mutual
def parseVal : Nat → List Char → Option (Json × List Char)
  | 0, _ => none
  | fuel + 1, s =>
    match skipWs s with
    | [] => none
    | c :: r =>
      if c = 'n' then
        if ("ull".toList).isPrefixOf r then some (.null, r.drop 3) else none
      else if c = 't' then
        if ("rue".toList).isPrefixOf r then some (.bool true, r.drop 3) else none
      else if c = 'f' then
        if ("alse".toList).isPrefixOf r then some (.bool false, r.drop 4) else none
      else if c = '"' then (parseStrBody r).map (fun p => (.str p.1, p.2))
      else if c = '-' then
        match parseDigits r with
        | some (m, r2) => some (.num (-(m : Int)), r2)
        | none => none
      else if c.isDigit then
        match parseDigits (c :: r) with
        | some (m, r2) => some (.num (m : Int), r2)
        | none => none
      else if c = '[' then
        match skipWs r with
        | [] => none
        | x :: r2 =>
          if x = ']' then some (.arr .nil, r2)
          else (parseElems fuel (x :: r2)).map (fun p => (.arr p.1, p.2))
      else if c = lbrace then
        match skipWs r with
        | [] => none
        | x :: r2 =>
          if x = rbrace then some (.obj .nil, r2)
          else (parseMembers fuel (x :: r2)).map (fun p => (.obj p.1, p.2))
      else none
termination_by structural fuel => fuel
def parseElems : Nat → List Char → Option (JsonList × List Char)
  | 0, _ => none
  | fuel + 1, s =>
    match parseVal fuel s with
    | some (v, r) =>
      match skipWs r with
      | ',' :: r2 => (parseElems fuel (skipWs r2)).map (fun p => (.cons v p.1, p.2))
      | ']' :: r2 => some (.cons v .nil, r2)
      | _ => none
    | none => none
termination_by structural fuel => fuel
def parseMembers : Nat → List Char → Option (JsonObj × List Char)
  | 0, _ => none
  | fuel + 1, s =>
    match s with
    | [] => none
    | c :: r =>
      if c = '"' then
        match parseStrBody r with
        | some (k, r1) =>
          match skipWs r1 with
          | ':' :: r2 =>
            match parseVal fuel r2 with
            | some (v, r3) =>
              match skipWs r3 with
              | ',' :: r4 => (parseMembers fuel (skipWs r4)).map (fun p => (.cons k v p.1, p.2))
              | [] => none
              | x :: r4 =>
                if x = rbrace then some (.cons k v .nil, r4) else none
            | none => none
          | _ => none
        | none => none
      else none
termination_by structural fuel => fuel
end

/-- Model of strict `json.loads`: parse one value, allow surrounding
whitespace, reject trailing data.  `none` models a raised
`json.JSONDecodeError`. -/
def json_loads (s : List Char) : Option Json :=
  match parseVal (s.length + 1) s with
  | some (v, r) => if skipWs r = [] then some v else none
  | none => none

/-! ## `extract_json_from_text` -/

def fence3 : List Char := "```".toList

def fenceJson : List Char := "```json".toList

/-- The two ways `extract_json_from_text` fails: the explicit
`ValueError("No JSON found in response")`, and a `json.JSONDecodeError`
propagating from `json.loads` on the selected candidate substring. -/
inductive PyErr where
  | noJsonFound : PyErr
  | decodeError : PyErr
deriving DecidableEq

/-- The final `json.loads(json_str)` of `extract_json_from_text`:
a parse failure there propagates as a decode error. -/
def parseLocated (cand : List Char) : Except PyErr Json :=
  match json_loads cand with
  | some v => .ok v
  | none => .error .decodeError

/-- Translation of `extract_json_from_text` (src/exam_grading_system.py,
lines 58-75): try a strict parse of the whole text; otherwise take
`text.split("```json")[1].split("```")[0].strip()` when a json fence
marker occurs, else `text.split("```")[1].split("```")[0].strip()` when a
generic fence marker occurs, else the substring from the first curly
opening bracket to the last curly closing bracket; parse that. -/
def extract_json_from_text (text : List Char) : Except PyErr Json :=
  match json_loads text with
  | some v => .ok v
  | none =>
    if pyContains fenceJson text then
      parseLocated (pyStrip ((pySplit fence3 ((pySplit fenceJson text).getD 1 [])).getD 0 []))
    else if pyContains fence3 text then
      parseLocated (pyStrip ((pySplit fence3 ((pySplit fence3 text).getD 1 [])).getD 0 []))
    else
      let start := pyFind lbrace text
      let stop := pyRfind rbrace text + 1
      if start ≠ -1 ∧ start < stop then
        parseLocated (pySlice text start.toNat stop.toNat)
      else .error .noJsonFound

/-- The extraction algorithm as claim C2 words it: step (2) parses the
first json-tagged fenced segment's content, i.e. the text after the first
json fence marker up to the next fence marker. -/
def extractJsonClaimC2 (text : List Char) : Except PyErr Json :=
  match json_loads text with
  | some v => .ok v
  | none =>
    if pyContains fenceJson text then
      parseLocated (pyStrip (beforeFirst fence3 (afterFirst fenceJson text)))
    else if pyContains fence3 text then
      parseLocated (pyStrip (beforeFirst fence3 (afterFirst fence3 text)))
    else
      let start := pyFind lbrace text
      let stop := pyRfind rbrace text + 1
      if start ≠ -1 ∧ start < stop then
        parseLocated (pySlice text start.toNat stop.toNat)
      else .error .noJsonFound

/-- The extraction algorithm as amended: step (2) takes the substring
between the first and second occurrences of the json fence marker (to the
end when there is no second), truncated at the first generic fence marker
inside it, stripped. -/
def extractJsonAmended (text : List Char) : Except PyErr Json :=
  match json_loads text with
  | some v => .ok v
  | none =>
    if pyContains fenceJson text then
      parseLocated (pyStrip (beforeFirst fence3 (beforeFirst fenceJson (afterFirst fenceJson text))))
    else if pyContains fence3 text then
      parseLocated (pyStrip (beforeFirst fence3 (afterFirst fence3 text)))
    else
      let start := pyFind lbrace text
      let stop := pyRfind rbrace text + 1
      if start ≠ -1 ∧ start < stop then
        parseLocated (pySlice text start.toNat stop.toNat)
      else .error .noJsonFound

/-- A response that wraps a payload in a json-tagged code fence:
`"```json\n" ++ s ++ "\n```"`. -/
def fenceWrap (s : List Char) : List Char :=
  ("```json\x0a".toList) ++ s ++ ("\x0a```".toList)

/-! ## `extract_pdf_text` and the document tools -/

/-- Outcome of `page.extract_text()` for one page: its text, or a raised
extraction exception. -/
inductive PageResult where
  | ok (text : List Char) : PageResult
  | err : PageResult

/-- `"\n--- Page N ---\n"`. -/
def pageDelim (n : Nat) : List Char :=
  ("\n--- Page ".toList) ++ natDigits n ++ (" ---\n".toList)

/-- The page loop of `extract_pdf_text`: `text` accumulates page chunks;
the first page that raises aborts the loop and the accumulated text is
returned (the surrounding `try`/`except` only prints the error). -/
def extractPages : List PageResult → Nat → List Char → List Char
  | [], _, text => text
  | .ok p :: rest, n, text => extractPages rest (n + 1) (text ++ pageDelim n ++ p ++ ['\n'])
  | .err :: _, _, text => text

/-- Translation of `extract_pdf_text` (lines 42-55).  The oracle is
`none` when opening/reading the file itself raises (missing or corrupt
file), otherwise the list of per-page outcomes. -/
def extract_pdf_text (file : Option (List PageResult)) : List Char :=
  match file with
  | none => []
  | some pages => extractPages pages 1 []

def pageIsOk : PageResult → Bool
  | .ok _ => true
  | .err => false

def pageText : PageResult → List Char
  | .ok t => t
  | .err => []

/-- The texts of the pages before the first failing page. -/
def okPrefixTexts (pages : List PageResult) : List (List Char) :=
  (pages.takeWhile pageIsOk).map pageText

/-- Specification-side rendering: each page's text preceded by its
delimiter, pages numbered from `n`. -/
def renderPages (n : Nat) : List (List Char) → List Char
  | [] => []
  | t :: ts => pageDelim n ++ t ++ '\n' :: renderPages (n + 1) ts

/-- What C9 claims `extract_pdf_text` returns. -/
def extractPdfSpec (file : Option (List PageResult)) : List Char :=
  match file with
  | none => []
  | some pages => renderPages 1 (okPrefixTexts pages)

/-- The dictionary each `process_*` tool returns (`doctype` models the
`'type'` key; `type` is a Lean keyword). -/
structure Document where
  text : List Char
  path : List Char
  doctype : List Char
  char_count : Nat

/-- Translation of `process_question_paper` (lines 80-99). -/
def process_question_paper (file : Option (List PageResult)) (pdf_path : List Char) :
    Document :=
  let p := normpath pdf_path
  let text := extract_pdf_text file
  ⟨text, p, ("question_paper".toList), text.length⟩

/-- Translation of `process_answer_sheet` (lines 102-121). -/
def process_answer_sheet (file : Option (List PageResult)) (pdf_path : List Char) :
    Document :=
  let p := normpath pdf_path
  let text := extract_pdf_text file
  ⟨text, p, ("answer_sheet".toList), text.length⟩

/-- Translation of `process_textbook` (lines 124-143). -/
def process_textbook (file : Option (List PageResult)) (pdf_path : List Char) :
    Document :=
  let p := normpath pdf_path
  let text := extract_pdf_text file
  ⟨text, p, ("textbook".toList), text.length⟩

/-! ## `calculate_grade` -/

/-- Translation of `calculate_grade` (lines 146-167).  Python float
comparisons on these threshold constants coincide with exact rational
comparison, so the percentage is modelled as a rational. -/
def calculate_grade (percentage : ℚ) : List Char :=
  if percentage ≥ 90 then ("A+".toList)
  else if percentage ≥ 80 then ("A".toList)
  else if percentage ≥ 70 then ("B".toList)
  else if percentage ≥ 60 then ("C".toList)
  else if percentage ≥ 50 then ("D".toList)
  else ("F".toList)

/-! ## `save_results_to_file` -/

/-- The ambient state `save_results_to_file` touches: the files it can
write, the working directory `os.path.abspath` resolves against, and
whether `open(filename, "w")` raises (permission denied and kin). -/
structure SaveWorld where
  files : List (List Char × List Char)
  cwd : List Char
  openFails : Bool

def writeFile (w : SaveWorld) (name content : List Char) : SaveWorld :=
  ⟨(name, content) :: w.files, w.cwd, w.openFails⟩

def readFile (w : SaveWorld) (name : List Char) : Option (List Char) :=
  (w.files.find? (fun p => p.1 == name)).map (fun p => p.2)

/-- `os.path.abspath` for the working directory `cwd`. -/
def abspath (cwd name : List Char) : List Char := normpath (pyJoin cwd name)

def successMsg (p : List Char) : List Char :=
  ("✓ Results saved successfully to: ".toList) ++ p

def errMsgHead : List Char := ("✗ Error saving results: ".toList)

/-- Translation of `save_results_to_file` (lines 170-191): parse the
input, then open and write the re-serialized value, returning a success
message carrying the absolute path; any exception is caught and rendered
as an error message. -/
def save_results_to_file (w : SaveWorld) (results_json filename : List Char) :
    List Char × SaveWorld :=
  match json_loads results_json with
  | none => (errMsgHead ++ ("invalid JSON".toList), w)
  | some results =>
    if w.openFails then (errMsgHead ++ ("open failed".toList), w)
    else
      let w2 := writeFile w filename (json_dump_indent2 results)
      (successMsg (abspath w.cwd filename), w2)

/-! ## `run_grading_system` -/

def DATASET_PATH : List Char := ("./exam-data".toList)

def QUESTION_PAPER : List Char := ("question_paper.pdf".toList)

def ANSWER_SHEET : List Char := ("student_answer_sheet1.pdf".toList)

def TEXTBOOK : List Char := ("textbook_notes.pdf".toList)

/-- The externally visible events of one run, in program order. -/
inductive RunEvent where
  | fileFound (path : List Char) : RunEvent
  | fileMissing (path : List Char) : RunEvent
  | runnerCreated : RunEvent
  | sessionCreated : RunEvent
  | reasoningServiceCall : RunEvent
deriving DecidableEq

/-- Translation of `run_grading_system` (lines 460-580): the three input
paths are checked in order before the runner, the session or
`runner.run_debug` (the reasoning-service call) exist; the first missing
path prints a diagnostic and returns `None`.  `pathExists` is the
filesystem oracle; `runDebugFails` tells whether the awaited
`run_debug` call raises (the surrounding `try` then returns `None`). -/
def run_grading_system (pathExists : List Char → Bool) (runDebugFails : Bool) :
    Option Unit × List RunEvent :=
  let qp := pyJoin DATASET_PATH QUESTION_PAPER
  let ans := pyJoin DATASET_PATH ANSWER_SHEET
  let tb := pyJoin DATASET_PATH TEXTBOOK
  if pathExists qp = false then (none, [.fileMissing qp])
  else if pathExists ans = false then (none, [.fileFound qp, .fileMissing ans])
  else if pathExists tb = false then
    (none, [.fileFound qp, .fileFound ans, .fileMissing tb])
  else
    ((if runDebugFails then none else some ()),
      [.fileFound qp, .fileFound ans, .fileFound tb,
        .runnerCreated, .sessionCreated, .reasoningServiceCall])

/-! ## Elementary list and character lemmas -/

theorem nil_isPrefixOf (t : List Char) : ([] : List Char).isPrefixOf t = true := by
  cases t <;> rfl

theorem isPrefixOf_self_append (l t : List Char) : l.isPrefixOf (l ++ t) = true := by
  induction l with
  | nil => exact nil_isPrefixOf t
  | cons a as ih => simp [List.isPrefixOf, ih]

/-- `isPrefixOf` characterised through `take`. -/
theorem isPrefixOf_eq_take :
    ∀ {l m : List Char}, l.isPrefixOf m = true ↔ m.take l.length = l := by
  intro l
  induction l with
  | nil => intro m; simp [nil_isPrefixOf]
  | cons a as ih =>
    intro m
    cases m with
    | nil => simp [List.isPrefixOf]
    | cons b bs =>
      simp only [List.isPrefixOf, Bool.and_eq_true, beq_iff_eq, List.length_cons,
        List.take_succ_cons, List.cons.injEq, ih]
      tauto

theorem length_le_of_isPrefixOf :
    ∀ {l m : List Char}, l.isPrefixOf m = true → l.length ≤ m.length := by
  intro l
  induction l with
  | nil => simp
  | cons a as ih =>
    intro m h
    cases m with
    | nil => simp [List.isPrefixOf] at h
    | cons b bs =>
      simp only [List.isPrefixOf, Bool.and_eq_true] at h
      have := ih h.2
      simp only [List.length_cons]
      omega

theorem skipWs_cons_of_not {c : Char} (s : List Char) (h : isJsonWs c = false) :
    skipWs (c :: s) = c :: s := by
  simp [skipWs, List.dropWhile_cons, h]

theorem skipWs_append_ws (w x : List Char) (h : ∀ c ∈ w, isJsonWs c = true) :
    skipWs (w ++ x) = skipWs x := by
  induction w with
  | nil => rfl
  | cons a as ih =>
    have ha := h a (List.mem_cons_self a as)
    simp only [List.cons_append, skipWs, List.dropWhile_cons, ha, if_true]
    exact ih fun c hc => h c (List.mem_cons_of_mem a hc)

theorem nlInd_ws (b : Bool) (d : Nat) : ∀ c ∈ nlInd b d, isJsonWs c = true := by
  intro c hc
  cases b with
  | false => simp [nlInd] at hc
  | true =>
    simp only [nlInd, if_true, List.mem_cons] at hc
    rcases hc with h | h
    · subst h; rfl
    · rw [List.eq_of_mem_replicate h]; rfl

theorem skipWs_nlInd (b : Bool) (d : Nat) (x : List Char) :
    skipWs (nlInd b d ++ x) = skipWs x :=
  skipWs_append_ws _ _ (nlInd_ws b d)

theorem takeWhile_append_all {p : Char → Bool} (l r : List Char)
    (h : ∀ c ∈ l, p c = true) : (l ++ r).takeWhile p = l ++ r.takeWhile p := by
  induction l with
  | nil => rfl
  | cons a as ih =>
    have ha := h a (List.mem_cons_self a as)
    simp only [List.cons_append, List.takeWhile_cons, ha, if_true]
    rw [ih fun c hc => h c (List.mem_cons_of_mem a hc)]

theorem dropWhile_append_all {p : Char → Bool} (l r : List Char)
    (h : ∀ c ∈ l, p c = true) : (l ++ r).dropWhile p = r.dropWhile p := by
  induction l with
  | nil => rfl
  | cons a as ih =>
    have ha := h a (List.mem_cons_self a as)
    simp only [List.cons_append, List.dropWhile_cons, ha, if_true]
    exact ih fun c hc => h c (List.mem_cons_of_mem a hc)

/-! ## Decimal digits -/

theorem digitChar_isDigit {m : Nat} (h : m < 10) : (digitChar m).isDigit = true := by
  interval_cases m <;> decide

theorem digitVal_digitChar {m : Nat} (h : m < 10) : digitVal (digitChar m) = m := by
  interval_cases m <;> decide

theorem natDigitsAux_spec : ∀ fuel n : Nat, 0 < fuel → n < 10 ^ fuel →
    natDigitsAux fuel n ≠ [] ∧ (∀ c ∈ natDigitsAux fuel n, c.isDigit = true) ∧
    ∀ a : Nat, (natDigitsAux fuel n).foldl (fun a c => 10 * a + digitVal c) a =
      a * 10 ^ (natDigitsAux fuel n).length + n := by
  intro fuel
  induction fuel with
  | zero => intro n h0 _; omega
  | succ f ih =>
    intro n _ hn
    by_cases h10 : n < 10
    · refine ⟨by simp [natDigitsAux, h10], ?_, ?_⟩
      · intro c hc
        simp only [natDigitsAux, h10, if_pos, List.mem_singleton] at hc
        subst hc
        exact digitChar_isDigit h10
      · intro a
        simp [natDigitsAux, h10, digitVal_digitChar h10]
        omega
    · have hf : 0 < f := by
        rcases Nat.eq_zero_or_pos f with h | h
        · subst h; simp at hn; omega
        · exact h
      have hdiv : n / 10 < 10 ^ f := by
        rw [pow_succ] at hn
        exact (Nat.div_lt_iff_lt_mul (by omega)).2 hn
      obtain ⟨hne, hall, hfold⟩ := ih (n / 10) hf hdiv
      have heq : natDigitsAux (f + 1) n =
          natDigitsAux f (n / 10) ++ [digitChar (n % 10)] := by
        simp [natDigitsAux, h10]
      refine ⟨by simp [heq], ?_, ?_⟩
      · intro c hc
        rw [heq] at hc
        simp only [List.mem_append, List.mem_singleton] at hc
        rcases hc with h | h
        · exact hall c h
        · subst h
          exact digitChar_isDigit (Nat.mod_lt _ (by omega))
      · intro a
        rw [heq, List.foldl_append, List.length_append, hfold a]
        simp only [List.foldl_cons, List.foldl_nil, List.length_singleton]
        rw [digitVal_digitChar (Nat.mod_lt _ (by omega)), pow_succ]
        have hmod := Nat.div_add_mod n 10
        ring_nf
        linarith [hmod]

theorem n_lt_10_pow (n : Nat) : n < 10 ^ (n + 1) :=
  Nat.lt_of_lt_of_le (Nat.lt_pow_self (by omega) n)
    (Nat.pow_le_pow_right (by omega) (by omega))

theorem natDigits_ne_nil (n : Nat) : natDigits n ≠ [] :=
  (natDigitsAux_spec (n + 1) n (by omega) (n_lt_10_pow n)).1

theorem natDigits_all_digits (n : Nat) : ∀ c ∈ natDigits n, c.isDigit = true :=
  (natDigitsAux_spec (n + 1) n (by omega) (n_lt_10_pow n)).2.1

theorem foldl_natDigits (n : Nat) :
    ∀ a : Nat, (natDigits n).foldl (fun a c => 10 * a + digitVal c) a =
      a * 10 ^ (natDigits n).length + n :=
  (natDigitsAux_spec (n + 1) n (by omega) (n_lt_10_pow n)).2.2

theorem parseDigits_natDigits (n : Nat) (rest : List Char)
    (hrest : headNotDigit rest = true) :
    parseDigits (natDigits n ++ rest) = some (n, rest) := by
  have hall := natDigits_all_digits n
  have hrt : rest.takeWhile Char.isDigit = [] := by
    cases rest with
    | nil => rfl
    | cons c t =>
      simp only [headNotDigit, Bool.not_eq_true'] at hrest
      simp [List.takeWhile_cons, hrest]
  have hrd : rest.dropWhile Char.isDigit = rest := by
    cases rest with
    | nil => rfl
    | cons c t =>
      simp only [headNotDigit, Bool.not_eq_true'] at hrest
      simp [List.dropWhile_cons, hrest]
  have htw := takeWhile_append_all (p := Char.isDigit) (natDigits n) rest hall
  have hdw := dropWhile_append_all (p := Char.isDigit) (natDigits n) rest hall
  rw [parseDigits]
  simp only [htw, hdw, hrt, hrd, List.append_nil]
  rw [if_neg (by simp [List.isEmpty_eq_false, natDigits_ne_nil n])]
  rw [foldl_natDigits]
  simp

/-! ## String-literal round trip -/

theorem parseStrBody_escape (s rest : List Char) :
    parseStrBody (escapeStr s ++ '"' :: rest) = some (s, rest) := by
  induction s with
  | nil => simp [escapeStr, parseStrBody]
  | cons c t ih =>
    by_cases h1 : c = '"'
    · subst h1; simp [escapeStr, escChar, parseStrBody, parseEscape, unescChar, ih]
    · by_cases h2 : c = '\\'
      · subst h2; simp [escapeStr, escChar, parseStrBody, parseEscape, unescChar, ih]
      · by_cases h3 : c = '\n'
        · subst h3; simp [escapeStr, escChar, parseStrBody, parseEscape, unescChar, ih]
        · by_cases h4 : c = '\t'
          · subst h4; simp [escapeStr, escChar, parseStrBody, parseEscape, unescChar, ih]
          · by_cases h5 : c = '\r'
            · subst h5; simp [escapeStr, escChar, parseStrBody, parseEscape, unescChar, ih]
            · simp [escapeStr, escChar, parseStrBody, h1, h2, h3, h4, h5, ih]

/-! ## Head-character facts about serializations -/

theorem ne_of_isDigit {c x : Char} (hx : x.isDigit = false) (h : c.isDigit = true) :
    ¬ c = x := by
  intro he; subst he; simp [hx] at h

theorem isJsonWs_of_isDigit {c : Char} (h : c.isDigit = true) : isJsonWs c = false := by
  have h1 := ne_of_isDigit (x := ' ') (by decide) h
  have h2 := ne_of_isDigit (x := '\t') (by decide) h
  have h3 := ne_of_isDigit (x := '\n') (by decide) h
  have h4 := ne_of_isDigit (x := '\r') (by decide) h
  simp [isJsonWs, h1, h2, h3, h4]

theorem natDigits_cons (n : Nat) :
    ∃ c t, natDigits n = c :: t ∧ c.isDigit = true := by
  cases h : natDigits n with
  | nil => exact absurd h (natDigits_ne_nil n)
  | cons c t =>
    refine ⟨c, t, rfl, ?_⟩
    exact natDigits_all_digits n c (h ▸ List.mem_cons_self c t)

/-- Every serialized value starts with a non-whitespace character that is
neither a closing square bracket nor a closing curly bracket. -/
theorem serVal_head (b : Bool) (d : Nat) (v : Json) :
    ∃ c t, serVal b d v = c :: t ∧ isJsonWs c = false ∧ c ≠ ']' ∧ c ≠ rbrace := by
  cases v with
  | null => exact ⟨'n', _, rfl, by decide, by decide, by decide⟩
  | bool bb =>
    refine bb.rec ?_ ?_
    · refine ⟨'f', _, rfl, ?_, ?_, ?_⟩ <;> decide
    · refine ⟨'t', _, rfl, ?_, ?_, ?_⟩ <;> decide
  | num n =>
    show ∃ c t, serNum n = c :: t ∧ _
    rw [serNum]
    split
    · exact ⟨'-', _, rfl, by decide, by decide, by decide⟩
    · obtain ⟨c, t, hct, hd⟩ := natDigits_cons n.toNat
      exact ⟨c, t, hct, isJsonWs_of_isDigit hd,
        ne_of_isDigit (by decide) hd, ne_of_isDigit (by decide) hd⟩
  | str s => exact ⟨'"', _, rfl, by decide, by decide, by decide⟩
  | arr xs =>
    cases xs with
    | nil => exact ⟨'[', _, rfl, by decide, by decide, by decide⟩
    | cons v tl => exact ⟨'[', _, rfl, by decide, by decide, by decide⟩
  | obj kvs =>
    cases kvs with
    | nil => exact ⟨lbrace, _, rfl, by decide, by decide, by decide⟩
    | cons k v tl => exact ⟨lbrace, _, rfl, by decide, by decide, by decide⟩

theorem serList_cons_head (b : Bool) (d : Nat) (v : Json) (tl : JsonList) :
    ∃ c t, serList b d (.cons v tl) = c :: t ∧ isJsonWs c = false ∧ c ≠ ']' ∧ c ≠ rbrace := by
  obtain ⟨c, t, hct, hw, h1, h2⟩ := serVal_head b d v
  cases tl with
  | nil => exact ⟨c, t, hct, hw, h1, h2⟩
  | cons w tl2 =>
    refine ⟨c, t ++ ',' :: (nlInd b d ++ serList b d (.cons w tl2)), ?_, hw, h1, h2⟩
    show serVal b d v ++ _ = _
    rw [hct]
    rfl

theorem serObj_cons_head (b : Bool) (d : Nat) (k : List Char) (v : Json) (tl : JsonObj) :
    ∃ t, serObj b d (.cons k v tl) = '"' :: t := by
  cases tl with
  | nil => exact ⟨_, rfl⟩
  | cons k2 w tl2 => exact ⟨_, rfl⟩

/-! ## Size lemmas -/

theorem jsonSize_pos (v : Json) : 1 ≤ jsonSize v := by
  cases v <;> simp [jsonSize]

theorem jsonListSize_pos (v : Json) (tl : JsonList) :
    1 ≤ jsonListSize (.cons v tl) := by
  simp [jsonListSize]; omega

theorem jsonObjSize_pos (k : List Char) (v : Json) (tl : JsonObj) :
    1 ≤ jsonObjSize (.cons k v tl) := by
  simp [jsonObjSize]; omega

/-! ## Leading whitespace is transparent to the parser -/

theorem parseVal_ws (fuel : Nat) (w x : List Char) (hw : ∀ c ∈ w, isJsonWs c = true) :
    parseVal fuel (w ++ x) = parseVal fuel x := by
  cases fuel with
  | zero => rfl
  | succ f =>
    simp only [parseVal]
    rw [skipWs_append_ws w x hw]

/-! ## Parser dispatch lemmas -/

theorem parseVal_quote (fuel : Nat) (r : List Char) :
    parseVal (fuel + 1) ('"' :: r) =
      (parseStrBody r).map (fun p => (Json.str p.1, p.2)) := rfl

theorem parseVal_minus (fuel : Nat) (r : List Char) :
    parseVal (fuel + 1) ('-' :: r) =
      match parseDigits r with
      | some (m, r2) => some (Json.num (-(m : Int)), r2)
      | none => none := rfl

theorem parseVal_lbracket (fuel : Nat) (r : List Char) :
    parseVal (fuel + 1) ('[' :: r) =
      match skipWs r with
      | [] => none
      | x :: r2 =>
        if x = ']' then some (Json.arr .nil, r2)
        else (parseElems fuel (x :: r2)).map (fun p => (Json.arr p.1, p.2)) := rfl

theorem parseVal_lbrace (fuel : Nat) (r : List Char) :
    parseVal (fuel + 1) (lbrace :: r) =
      match skipWs r with
      | [] => none
      | x :: r2 =>
        if x = rbrace then some (Json.obj .nil, r2)
        else (parseMembers fuel (x :: r2)).map (fun p => (Json.obj p.1, p.2)) := rfl

theorem parseVal_digit (fuel : Nat) (c : Char) (r : List Char) (hcd : c.isDigit = true) :
    parseVal (fuel + 1) (c :: r) =
      match parseDigits (c :: r) with
      | some (m, r2) => some (Json.num (m : Int), r2)
      | none => none := by
  have hw := isJsonWs_of_isDigit hcd
  simp only [parseVal, skipWs_cons_of_not _ hw]
  rw [if_neg (ne_of_isDigit (by decide) hcd), if_neg (ne_of_isDigit (by decide) hcd),
    if_neg (ne_of_isDigit (by decide) hcd), if_neg (ne_of_isDigit (by decide) hcd),
    if_neg (ne_of_isDigit (by decide) hcd), if_pos hcd]

theorem parseMembers_quote (fuel : Nat) (r : List Char) :
    parseMembers (fuel + 1) ('"' :: r) =
      match parseStrBody r with
      | some (k, r1) =>
        (match skipWs r1 with
         | ':' :: r2 =>
           (match parseVal fuel r2 with
            | some (v, r3) =>
              (match skipWs r3 with
               | ',' :: r4 => (parseMembers fuel (skipWs r4)).map
                   (fun p => (JsonObj.cons k v p.1, p.2))
               | [] => none
               | x :: r4 => if x = rbrace then some (JsonObj.cons k v .nil, r4) else none)
            | none => none)
         | _ => none)
      | none => none := rfl

theorem spc_ws (b : Bool) : ∀ c ∈ spc b, isJsonWs c = true := by
  intro c hc
  cases b with
  | false => simp [spc] at hc
  | true =>
    simp only [spc, if_true, List.mem_singleton] at hc
    subst hc; rfl

theorem headNotDigit_nlInd (b : Bool) (e : Nat) (x : Char) (r : List Char)
    (hx : x.isDigit = false) : headNotDigit (nlInd b e ++ x :: r) = true := by
  cases b with
  | false => simp [nlInd, headNotDigit, hx]
  | true => rfl

theorem skipWs_serList (b : Bool) (d : Nat) (v : Json) (tl : JsonList) (x : List Char) :
    skipWs (serList b d (.cons v tl) ++ x) = serList b d (.cons v tl) ++ x := by
  obtain ⟨c, t, hct, hw, _, _⟩ := serList_cons_head b d v tl
  rw [hct]
  exact skipWs_cons_of_not _ hw

theorem skipWs_serObj (b : Bool) (d : Nat) (k : List Char) (v : Json) (tl : JsonObj)
    (x : List Char) :
    skipWs (serObj b d (.cons k v tl) ++ x) = serObj b d (.cons k v tl) ++ x := by
  obtain ⟨t, hct⟩ := serObj_cons_head b d k v tl
  rw [hct]
  exact skipWs_cons_of_not _ (by decide)

theorem parseVal_null (fuel : Nat) (rest : List Char) :
    parseVal (fuel + 1) ('n' :: 'u' :: 'l' :: 'l' :: rest) = some (Json.null, rest) := by
  have h : ("ull".toList).isPrefixOf ('u' :: 'l' :: 'l' :: rest) = true :=
    isPrefixOf_self_append ("ull".toList) rest
  show (if ("ull".toList).isPrefixOf ('u' :: 'l' :: 'l' :: rest) = true
    then some (Json.null, List.drop 3 ('u' :: 'l' :: 'l' :: rest)) else none) =
    some (Json.null, rest)
  rw [if_pos h]
  rfl

theorem parseVal_true_lit (fuel : Nat) (rest : List Char) :
    parseVal (fuel + 1) ('t' :: 'r' :: 'u' :: 'e' :: rest) =
      some (Json.bool true, rest) := by
  have h : ("rue".toList).isPrefixOf ('r' :: 'u' :: 'e' :: rest) = true :=
    isPrefixOf_self_append ("rue".toList) rest
  show (if ("rue".toList).isPrefixOf ('r' :: 'u' :: 'e' :: rest) = true
    then some (Json.bool true, List.drop 3 ('r' :: 'u' :: 'e' :: rest)) else none) =
    some (Json.bool true, rest)
  rw [if_pos h]
  rfl

theorem parseVal_false_lit (fuel : Nat) (rest : List Char) :
    parseVal (fuel + 1) ('f' :: 'a' :: 'l' :: 's' :: 'e' :: rest) =
      some (Json.bool false, rest) := by
  have h : ("alse".toList).isPrefixOf ('a' :: 'l' :: 's' :: 'e' :: rest) = true :=
    isPrefixOf_self_append ("alse".toList) rest
  show (if ("alse".toList).isPrefixOf ('a' :: 'l' :: 's' :: 'e' :: rest) = true
    then some (Json.bool false, List.drop 4 ('a' :: 'l' :: 's' :: 'e' :: rest)) else none) =
    some (Json.bool false, rest)
  rw [if_pos h]
  rfl

theorem skipWs_rsqb (rest : List Char) : skipWs (']' :: rest) = ']' :: rest :=
  skipWs_cons_of_not _ (by decide)

theorem skipWs_rbraceC (rest : List Char) : skipWs (rbrace :: rest) = rbrace :: rest :=
  skipWs_cons_of_not _ (by decide)

theorem skipWs_commaC (rest : List Char) : skipWs (',' :: rest) = ',' :: rest :=
  skipWs_cons_of_not _ (by decide)

theorem skipWs_colonC (rest : List Char) : skipWs (':' :: rest) = ':' :: rest :=
  skipWs_cons_of_not _ (by decide)

theorem headNotDigit_commaC (x : List Char) : headNotDigit (',' :: x) = true := rfl

/-! ## The parser inverts both serializers -/

theorem parse_ser_fuel : ∀ fuel : Nat,
    (∀ (v : Json) (b : Bool) (d : Nat) (rest : List Char),
        jsonSize v ≤ fuel → headNotDigit rest = true →
        parseVal fuel (serVal b d v ++ rest) = some (v, rest)) ∧
    (∀ (xs : JsonList) (b : Bool) (d e : Nat) (rest : List Char),
        xs ≠ .nil → jsonListSize xs ≤ fuel →
        parseElems fuel (serList b d xs ++ (nlInd b e ++ ']' :: rest)) = some (xs, rest)) ∧
    (∀ (kvs : JsonObj) (b : Bool) (d e : Nat) (rest : List Char),
        kvs ≠ .nil → jsonObjSize kvs ≤ fuel →
        parseMembers fuel (serObj b d kvs ++ (nlInd b e ++ rbrace :: rest)) =
          some (kvs, rest)) := by
  intro fuel
  induction fuel with
  | zero =>
    refine ⟨?_, ?_, ?_⟩
    · intro v _ _ _ hsz _
      have := jsonSize_pos v
      omega
    · intro xs _ _ _ _ hne hsz
      cases xs with
      | nil => exact absurd rfl hne
      | cons v tl => have := jsonListSize_pos v tl; omega
    · intro kvs _ _ _ _ hne hsz
      cases kvs with
      | nil => exact absurd rfl hne
      | cons k v tl => have := jsonObjSize_pos k v tl; omega
  | succ fuel ih =>
    obtain ⟨ihv, ihe, ihm⟩ := ih
    refine ⟨?_, ?_, ?_⟩
    · -- parseVal inverts serVal
      intro v b d rest hsz hrest
      cases v with
      | null => exact parseVal_null fuel rest
      | bool bb =>
        cases bb with
        | true => exact parseVal_true_lit fuel rest
        | false => exact parseVal_false_lit fuel rest
      | str s =>
        have h : serVal b d (.str s) ++ rest = '"' :: (escapeStr s ++ '"' :: rest) := by
          show ('"' :: (escapeStr s ++ ['"'])) ++ rest = _
          simp
        rw [h, parseVal_quote, parseStrBody_escape]
        rfl
      | num n =>
        by_cases hneg : n < 0
        · have h : serVal b d (.num n) ++ rest = '-' :: (natDigits n.natAbs ++ rest) := by
            show serNum n ++ rest = _
            rw [serNum, if_pos hneg]
            rfl
          rw [h, parseVal_minus, parseDigits_natDigits _ _ hrest]
          have hn : -((n.natAbs : Nat) : Int) = n := by omega
          show some (Json.num (-((n.natAbs : Nat) : Int)), rest) = some (Json.num n, rest)
          rw [hn]
        · obtain ⟨c, t, hct, hcd⟩ := natDigits_cons n.toNat
          have h : serVal b d (.num n) ++ rest = c :: (t ++ rest) := by
            show serNum n ++ rest = _
            rw [serNum, if_neg hneg, hct]
            rfl
          rw [h, parseVal_digit _ _ _ hcd]
          have h2 : c :: (t ++ rest) = natDigits n.toNat ++ rest := by
            rw [hct]; rfl
          rw [h2, parseDigits_natDigits _ _ hrest]
          have hn : ((n.toNat : Nat) : Int) = n := by omega
          show some (Json.num ((n.toNat : Nat) : Int), rest) = some (Json.num n, rest)
          rw [hn]
      | arr xs =>
        cases xs with
        | nil => rfl
        | cons v tl =>
          have h : serVal b d (.arr (.cons v tl)) ++ rest =
              '[' :: (nlInd b (d + 1) ++
                (serList b (d + 1) (.cons v tl) ++ (nlInd b d ++ (']' :: rest)))) := by
            show '[' :: (nlInd b (d + 1) ++ serList b (d + 1) (.cons v tl) ++
              nlInd b d ++ [']']) ++ rest = _
            simp
          rw [h, parseVal_lbracket, skipWs_nlInd, skipWs_serList]
          obtain ⟨c, t, hct, hw, hb1, _⟩ := serList_cons_head b (d + 1) v tl
          rw [hct]
          show (if c = ']' then some (Json.arr .nil, t ++ (nlInd b d ++ (']' :: rest)))
            else (parseElems fuel (c :: (t ++ (nlInd b d ++ (']' :: rest))))).map
              (fun p => (Json.arr p.1, p.2))) = some (Json.arr (.cons v tl), rest)
          rw [if_neg hb1]
          have h2 : c :: (t ++ (nlInd b d ++ (']' :: rest))) =
              serList b (d + 1) (.cons v tl) ++ (nlInd b d ++ (']' :: rest)) := by
            rw [hct]; rfl
          rw [h2, ihe (.cons v tl) b (d + 1) d rest (by simp)
            (by simp [jsonSize] at hsz; omega)]
          rfl
      | obj kvs =>
        cases kvs with
        | nil => rfl
        | cons k v tl =>
          have h : serVal b d (.obj (.cons k v tl)) ++ rest =
              lbrace :: (nlInd b (d + 1) ++
                (serObj b (d + 1) (.cons k v tl) ++ (nlInd b d ++ (rbrace :: rest)))) := by
            show lbrace :: (nlInd b (d + 1) ++ serObj b (d + 1) (.cons k v tl) ++
              nlInd b d ++ [rbrace]) ++ rest = _
            simp
          rw [h, parseVal_lbrace, skipWs_nlInd, skipWs_serObj]
          obtain ⟨t, hct⟩ := serObj_cons_head b (d + 1) k v tl
          rw [hct]
          show (if '"' = rbrace then some (Json.obj .nil, t ++ (nlInd b d ++ (rbrace :: rest)))
            else (parseMembers fuel ('"' :: (t ++ (nlInd b d ++ (rbrace :: rest))))).map
              (fun p => (Json.obj p.1, p.2))) = some (Json.obj (.cons k v tl), rest)
          rw [if_neg (by decide)]
          have h2 : '"' :: (t ++ (nlInd b d ++ (rbrace :: rest))) =
              serObj b (d + 1) (.cons k v tl) ++ (nlInd b d ++ (rbrace :: rest)) := by
            rw [hct]; rfl
          rw [h2, ihm (.cons k v tl) b (d + 1) d rest (by simp)
            (by simp [jsonSize] at hsz; omega)]
          rfl
    · -- parseElems inverts serList
      intro xs b d e rest hne hsz
      cases xs with
      | nil => exact absurd rfl hne
      | cons v tl =>
        cases tl with
        | nil =>
          rw [show serList b d (.cons v .nil) ++ (nlInd b e ++ ']' :: rest) =
              serVal b d v ++ (nlInd b e ++ ']' :: rest) from rfl]
          simp only [parseElems]
          rw [ihv v b d _ (by simp [jsonListSize] at hsz; omega)
            (headNotDigit_nlInd b e ']' rest (by decide))]
          simp only [skipWs_nlInd, skipWs_rsqb]
        | cons w tl2 =>
          have h : serList b d (.cons v (.cons w tl2)) ++ (nlInd b e ++ ']' :: rest) =
              serVal b d v ++
                (',' :: (nlInd b d ++
                  (serList b d (.cons w tl2) ++ (nlInd b e ++ ']' :: rest)))) := by
            show serVal b d v ++ ',' :: (nlInd b d ++ serList b d (.cons w tl2)) ++
              (nlInd b e ++ ']' :: rest) = _
            simp
          rw [h]
          simp only [parseElems]
          rw [ihv v b d _ (by simp [jsonListSize] at hsz; omega) (headNotDigit_commaC _)]
          simp only [skipWs_commaC, skipWs_nlInd, skipWs_serList]
          rw [ihe (.cons w tl2) b d e rest (by simp)
            (by simp [jsonListSize] at hsz ⊢; omega)]
          rfl
    · -- parseMembers inverts serObj
      intro kvs b d e rest hne hsz
      cases kvs with
      | nil => exact absurd rfl hne
      | cons k v tl =>
        cases tl with
        | nil =>
          have h : serObj b d (.cons k v .nil) ++ (nlInd b e ++ rbrace :: rest) =
              '"' :: (escapeStr k ++
                ('"' :: (':' :: (spc b ++
                  (serVal b d v ++ (nlInd b e ++ rbrace :: rest)))))) := by
            show (serStr k ++ ':' :: (spc b ++ serVal b d v)) ++
              (nlInd b e ++ rbrace :: rest) = _
            simp [serStr]
          rw [h, parseMembers_quote, parseStrBody_escape]
          simp only [skipWs_colonC]
          rw [parseVal_ws fuel _ _ (spc_ws b)]
          rw [ihv v b d _ (by simp [jsonObjSize] at hsz; omega)
            (headNotDigit_nlInd b e rbrace rest (by decide))]
          simp only [skipWs_nlInd, skipWs_rbraceC]
          rfl
        | cons k2 w tl2 =>
          have h : serObj b d (.cons k v (.cons k2 w tl2)) ++
              (nlInd b e ++ rbrace :: rest) =
              '"' :: (escapeStr k ++
                ('"' :: (':' :: (spc b ++ (serVal b d v ++
                  (',' :: (nlInd b d ++
                    (serObj b d (.cons k2 w tl2) ++
                      (nlInd b e ++ rbrace :: rest))))))))) := by
            show (serStr k ++ ':' :: (spc b ++ serVal b d v) ++
              ',' :: (nlInd b d ++ serObj b d (.cons k2 w tl2))) ++
              (nlInd b e ++ rbrace :: rest) = _
            simp [serStr]
          rw [h, parseMembers_quote, parseStrBody_escape]
          simp only [skipWs_colonC]
          rw [parseVal_ws fuel _ _ (spc_ws b)]
          rw [ihv v b d _ (by simp [jsonObjSize] at hsz; omega) (headNotDigit_commaC _)]
          simp only [skipWs_commaC, skipWs_nlInd, skipWs_serObj]
          rw [ihm (.cons k2 w tl2) b d e rest (by simp)
            (by simp [jsonObjSize] at hsz ⊢; omega)]
          rfl

/-! ## Size bounds: the fuel `length + 1` suffices -/

mutual
theorem jsonSize_le_serVal : ∀ (b : Bool) (d : Nat) (v : Json),
    jsonSize v ≤ (serVal b d v).length
  | b, d, .null => by
    show (1 : Nat) ≤ 4
    omega
  | b, d, .bool true => by
    show (1 : Nat) ≤ 4
    omega
  | b, d, .bool false => by
    show (1 : Nat) ≤ 5
    omega
  | b, d, .num n => by
    show 1 ≤ (serNum n).length
    rw [serNum]
    split
    · simp
    · exact List.length_pos.2 (natDigits_ne_nil _)
  | b, d, .str s => by
    show 1 ≤ (serStr s).length
    simp [serStr]
  | b, d, .arr .nil => by
    show (1 : Nat) ≤ 2
    omega
  | b, d, .arr (.cons v tl) => by
    have h := jsonListSize_le_serList b (d + 1) (.cons v tl)
    show 1 + jsonListSize (.cons v tl) ≤
      ('[' :: (nlInd b (d + 1) ++ serList b (d + 1) (.cons v tl) ++
        nlInd b d ++ [']'])).length
    simp only [List.length_cons, List.length_append, List.length_singleton]
    omega
  | b, d, .obj .nil => by
    show (1 : Nat) ≤ 2
    omega
  | b, d, .obj (.cons k v tl) => by
    have h := jsonObjSize_le_serObj b (d + 1) (.cons k v tl)
    show 1 + jsonObjSize (.cons k v tl) ≤
      (lbrace :: (nlInd b (d + 1) ++ serObj b (d + 1) (.cons k v tl) ++
        nlInd b d ++ [rbrace])).length
    simp only [List.length_cons, List.length_append, List.length_singleton]
    omega
theorem jsonListSize_le_serList : ∀ (b : Bool) (d : Nat) (xs : JsonList),
    jsonListSize xs ≤ (serList b d xs).length + 1
  | b, d, .nil => by
    show (0 : Nat) ≤ 0 + 1
    omega
  | b, d, .cons v .nil => by
    have h := jsonSize_le_serVal b d v
    show 1 + jsonSize v + 0 ≤ (serVal b d v).length + 1
    omega
  | b, d, .cons v (.cons w tl) => by
    have h1 := jsonSize_le_serVal b d v
    have h2 := jsonListSize_le_serList b d (.cons w tl)
    show 1 + jsonSize v + jsonListSize (.cons w tl) ≤
      (serVal b d v ++ ',' :: (nlInd b d ++ serList b d (.cons w tl))).length + 1
    simp only [List.length_append, List.length_cons]
    omega
theorem jsonObjSize_le_serObj : ∀ (b : Bool) (d : Nat) (kvs : JsonObj),
    jsonObjSize kvs ≤ (serObj b d kvs).length + 1
  | b, d, .nil => by
    show (0 : Nat) ≤ 0 + 1
    omega
  | b, d, .cons k v .nil => by
    have h := jsonSize_le_serVal b d v
    show 1 + jsonSize v + 0 ≤
      (serStr k ++ ':' :: (spc b ++ serVal b d v)).length + 1
    simp only [List.length_append, List.length_cons]
    omega
  | b, d, .cons k v (.cons k2 w tl) => by
    have h1 := jsonSize_le_serVal b d v
    have h2 := jsonObjSize_le_serObj b d (.cons k2 w tl)
    show 1 + jsonSize v + jsonObjSize (.cons k2 w tl) ≤
      (serStr k ++ ':' :: (spc b ++ serVal b d v) ++
        ',' :: (nlInd b d ++ serObj b d (.cons k2 w tl))).length + 1
    simp only [List.length_append, List.length_cons]
    omega
end

/-- The parser inverts both serializers at the `json_loads` level. -/
theorem json_loads_serVal (b : Bool) (d : Nat) (v : Json) :
    json_loads (serVal b d v) = some v := by
  have h1 := (parse_ser_fuel ((serVal b d v).length + 1)).1 v b d []
  rw [List.append_nil] at h1
  have h2 := h1 (by have := jsonSize_le_serVal b d v; omega) rfl
  rw [json_loads, h2]
  rfl

/-- `json.loads` inverts compact `json.dumps`. -/
theorem json_loads_dumps (v : Json) : json_loads (json_dumps v) = some v :=
  json_loads_serVal false 0 v

/-- `json.loads` inverts `json.dump(..., indent=2)`. -/
theorem json_loads_dump_indent2 (v : Json) :
    json_loads (json_dump_indent2 v) = some v :=
  json_loads_serVal true 0 v

/-! ## Claim C1: the grade thresholds -/

/-- C1: `calculate_grade` is a total function on the (rational) number
line assigning exactly one letter grade by right-inclusive lower-bound
thresholds — `[90,∞) → A+`, `[80,90) → A`, `[70,80) → B`, `[60,70) → C`,
`[50,60) → D`, `(-∞,50) → F` — and in particular `grade 90 = A+`,
`grade 89.999 = A`, `grade 50 = D`, `grade 49.999 = F`, `grade (-5) = F`,
`grade 150 = A+`. -/
theorem calculate_grade_spec :
    (∀ p : ℚ,
      (calculate_grade p = ("A+".toList) ↔ 90 ≤ p) ∧
      (calculate_grade p = ("A".toList) ↔ 80 ≤ p ∧ p < 90) ∧
      (calculate_grade p = ("B".toList) ↔ 70 ≤ p ∧ p < 80) ∧
      (calculate_grade p = ("C".toList) ↔ 60 ≤ p ∧ p < 70) ∧
      (calculate_grade p = ("D".toList) ↔ 50 ≤ p ∧ p < 60) ∧
      (calculate_grade p = ("F".toList) ↔ p < 50)) ∧
    calculate_grade 90 = ("A+".toList) ∧
    calculate_grade (89999 / 1000) = ("A".toList) ∧
    calculate_grade 50 = ("D".toList) ∧
    calculate_grade (49999 / 1000) = ("F".toList) ∧
    calculate_grade (-5) = ("F".toList) ∧
    calculate_grade 150 = ("A+".toList) := by
  constructor
  · intro p
    unfold calculate_grade
    split_ifs with h1 h2 h3 h4 h5 <;>
      refine ⟨?_, ?_, ?_, ?_, ?_, ?_⟩ <;>
      constructor <;>
      intro hx <;>
      first
        | rfl
        | linarith
        | (constructor <;> linarith)
        | (exact absurd hx (by decide))
        | (exfalso; linarith)
        | (rcases hx with ⟨hx1, hx2⟩; exfalso; linarith)
  · refine ⟨?_, ?_, ?_, ?_, ?_, ?_⟩ <;> norm_num [calculate_grade]

/-! ## Claim C9: the page loop returns the rendered prefix -/

theorem extractPages_render : ∀ (pages : List PageResult) (n : Nat) (text : List Char),
    extractPages pages n text = text ++ renderPages n (okPrefixTexts pages) := by
  intro pages
  induction pages with
  | nil => intro n text; simp [extractPages, okPrefixTexts, renderPages]
  | cons p rest ih =>
    intro n text
    cases p with
    | ok t =>
      simp only [extractPages, okPrefixTexts, List.takeWhile_cons, pageIsOk, if_true,
        List.map_cons, renderPages, pageText, ih]
      simp [okPrefixTexts]
    | err => simp [extractPages, okPrefixTexts, List.takeWhile_cons, pageIsOk, renderPages]

/-- C9: `extract_pdf_text` is total (the `except` swallows every
extraction error) and returns exactly the accumulated prefix: the pages
before the first failing page, each preceded by its `--- Page N ---`
delimiter, in page order; a failure at open yields the empty string. -/
theorem extract_pdf_text_prefix_spec :
    ∀ file : Option (List PageResult), extract_pdf_text file = extractPdfSpec file := by
  intro file
  cases file with
  | none => rfl
  | some pages =>
    show extractPages pages 1 [] = renderPages 1 (okPrefixTexts pages)
    rw [extractPages_render]
    rfl

/-! ## Claim C4 (corrected): partial text on mid-iteration failure -/

/-- C4 counterexample: a PDF whose first page extracts `"hi"` and whose
second page raises makes `extract_pdf_text` return the accumulated
partial text — 18 characters, not the empty text the claim requires on
"any extraction failure". -/
theorem extract_pdf_text_partial_cex :
    extract_pdf_text (some [PageResult.ok ("hi".toList), PageResult.err]) =
      ("\n--- Page 1 ---\nhi\n".toList) ∧
    ("\n--- Page 1 ---\nhi\n".toList ≠ ([] : List Char)) :=
  ⟨rfl, by decide⟩

/-- C4 amended: when the failure happens at file open (missing or corrupt
file, oracle `none`) or the PDF has zero pages, `extract_pdf_text`
returns empty text without raising, and the Document built from it has
`char_count = 0`; a failure partway through page iteration instead
returns the text accumulated so far. -/
theorem extract_pdf_text_empty (file : Option (List PageResult)) (path : List Char)
    (h : file = none ∨ file = some []) :
    extract_pdf_text file = [] ∧
    (process_question_paper file path).char_count = 0 := by
  rcases h with h | h <;> subst h <;> exact ⟨rfl, rfl⟩

theorem extract_pdf_text_empty_witness :
    extract_pdf_text (some []) = [] ∧
    (process_question_paper (some []) ("a.pdf".toList)).char_count = 0 :=
  extract_pdf_text_empty (some []) ("a.pdf".toList) (Or.inr rfl)

/-! ## Claim C10: the document dictionaries -/

/-- C10: each of the three `process_*` tools returns a dictionary whose
`char_count` equals the length of its `text`, whose type tag is the fixed
string of the invoking tool, and whose `path` is the normalized input
path. -/
theorem process_tools_document_invariant :
    ∀ (file : Option (List PageResult)) (path : List Char),
      ((process_question_paper file path).char_count =
          (process_question_paper file path).text.length ∧
        (process_question_paper file path).doctype = ("question_paper".toList) ∧
        (process_question_paper file path).path = normpath path) ∧
      ((process_answer_sheet file path).char_count =
          (process_answer_sheet file path).text.length ∧
        (process_answer_sheet file path).doctype = ("answer_sheet".toList) ∧
        (process_answer_sheet file path).path = normpath path) ∧
      ((process_textbook file path).char_count =
          (process_textbook file path).text.length ∧
        (process_textbook file path).doctype = ("textbook".toList) ∧
        (process_textbook file path).path = normpath path) :=
  fun _ _ => ⟨⟨rfl, rfl, rfl⟩, ⟨rfl, rfl, rfl⟩, ⟨rfl, rfl, rfl⟩⟩

/-! ## Claim C7: the missing-file check is eager -/

/-- C7: when any of the three configured input paths does not exist, the
run returns `None` before the runner or session exist and before any
reasoning-service call (`run_debug`) is made — so the pipeline can never
reach the DocsProcessed state, which only the delegated agents reach. -/
theorem run_grading_system_missing_file :
    ∀ (pathExists : List Char → Bool) (runDebugFails : Bool),
      (pathExists (pyJoin DATASET_PATH QUESTION_PAPER) = false ∨
        pathExists (pyJoin DATASET_PATH ANSWER_SHEET) = false ∨
        pathExists (pyJoin DATASET_PATH TEXTBOOK) = false) →
      (run_grading_system pathExists runDebugFails).1 = none ∧
      RunEvent.reasoningServiceCall ∉ (run_grading_system pathExists runDebugFails).2 ∧
      RunEvent.runnerCreated ∉ (run_grading_system pathExists runDebugFails).2 ∧
      RunEvent.sessionCreated ∉ (run_grading_system pathExists runDebugFails).2 := by
  intro pe rdf h
  cases hq : pe (pyJoin DATASET_PATH QUESTION_PAPER) <;>
    cases ha : pe (pyJoin DATASET_PATH ANSWER_SHEET) <;>
      cases ht : pe (pyJoin DATASET_PATH TEXTBOOK) <;>
        simp_all [run_grading_system]

theorem run_grading_system_missing_file_witness :
    (run_grading_system (fun _ => false) false).1 = none ∧
    RunEvent.reasoningServiceCall ∉ (run_grading_system (fun _ => false) false).2 ∧
    RunEvent.runnerCreated ∉ (run_grading_system (fun _ => false) false).2 ∧
    RunEvent.sessionCreated ∉ (run_grading_system (fun _ => false) false).2 :=
  run_grading_system_missing_file (fun _ => false) false (Or.inl rfl)

/-! ## Claim C8: invalid input leaves the filesystem untouched -/

/-- C8: `save_results_to_file` parses its input before the output file is
opened; when the input is not valid JSON it returns an error message and
the ambient state (files included) is unchanged. -/
theorem save_results_invalid_input (w : SaveWorld) (rj fn : List Char)
    (h : json_loads rj = none) :
    (save_results_to_file w rj fn).2 = w ∧
    (save_results_to_file w rj fn).1 = errMsgHead ++ ("invalid JSON".toList) := by
  simp [save_results_to_file, h]

theorem save_results_invalid_input_witness :
    (save_results_to_file ⟨[], [], false⟩ ("x".toList) ("out.json".toList)).2 =
      ⟨[], [], false⟩ ∧
    (save_results_to_file ⟨[], [], false⟩ ("x".toList) ("out.json".toList)).1 =
      errMsgHead ++ ("invalid JSON".toList) :=
  save_results_invalid_input ⟨[], [], false⟩ ("x".toList) ("out.json".toList) rfl

/-! ## Claim C6: save, message forms, and the write round trip -/

/-- C6: `save_results_to_file` never throws — it always returns either
the success message carrying the resolved absolute path, or an error
message (the caught exception rendered after a fixed error marker).  On
the success path the input's parsed value is re-serialized with 2-space
indentation into the file, and reading the file back parses to a value
deep-equal to the parsed input. -/
theorem save_results_to_file_spec : ∀ (w : SaveWorld) (rj fn : List Char),
    ((save_results_to_file w rj fn).1 = successMsg (abspath w.cwd fn) ∨
      ∃ t, (save_results_to_file w rj fn).1 = errMsgHead ++ t) ∧
    (∀ v : Json, json_loads rj = some v → w.openFails = false →
      (save_results_to_file w rj fn).1 = successMsg (abspath w.cwd fn) ∧
      readFile (save_results_to_file w rj fn).2 fn = some (json_dump_indent2 v) ∧
      json_loads (json_dump_indent2 v) = some v) ∧
    (json_loads rj = none → ∃ t, (save_results_to_file w rj fn).1 = errMsgHead ++ t) ∧
    (w.openFails = true → ∃ t, (save_results_to_file w rj fn).1 = errMsgHead ++ t) := by
  intro w rj fn
  cases hl : json_loads rj with
  | none =>
    refine ⟨Or.inr ⟨("invalid JSON".toList), ?_⟩, ?_, ?_, ?_⟩
    · simp [save_results_to_file, hl]
    · intro v hv
      simp [hl] at hv
    · intro _
      exact ⟨("invalid JSON".toList), by simp [save_results_to_file, hl]⟩
    · intro _
      exact ⟨("invalid JSON".toList), by simp [save_results_to_file, hl]⟩
  | some v0 =>
    cases hof : w.openFails with
    | true =>
      refine ⟨Or.inr ⟨("open failed".toList), ?_⟩, ?_, ?_, ?_⟩
      · simp [save_results_to_file, hl, hof]
      · intro v hv hof2
        cases hof2
      · intro h
        simp at h
      · intro _
        exact ⟨("open failed".toList), by simp [save_results_to_file, hl, hof]⟩
    | false =>
      have hmsg : (save_results_to_file w rj fn).1 = successMsg (abspath w.cwd fn) := by
        simp [save_results_to_file, hl, hof]
      refine ⟨Or.inl hmsg, ?_, ?_, ?_⟩
      · intro v hv _
        have hv0 : v0 = v := Option.some.inj hv
        subst hv0
        refine ⟨hmsg, ?_, json_loads_dump_indent2 v0⟩
        simp [save_results_to_file, hl, hof, readFile, writeFile]
      · intro h
        simp at h
      · intro h
        cases h

theorem save_results_to_file_spec_witness :
    (save_results_to_file ⟨[], ("/home/u".toList), false⟩ ("\x7b\x7d".toList)
        ("grading_results.json".toList)).1 =
      successMsg (abspath ("/home/u".toList) ("grading_results.json".toList)) ∧
    readFile (save_results_to_file ⟨[], ("/home/u".toList), false⟩ ("\x7b\x7d".toList)
        ("grading_results.json".toList)).2 ("grading_results.json".toList) =
      some (json_dump_indent2 (Json.obj .nil)) ∧
    json_loads (json_dump_indent2 (Json.obj .nil)) = some (Json.obj .nil) :=
  (save_results_to_file_spec ⟨[], ("/home/u".toList), false⟩ ("\x7b\x7d".toList)
    ("grading_results.json".toList)).2.1 (Json.obj .nil) rfl rfl

/-! ## Split and fence lemmas -/

theorem beforeFirst_not_contains (sep : List Char) :
    ∀ s, pyContains sep s = false → beforeFirst sep s = s := by
  intro s
  induction s with
  | nil => intro _; rfl
  | cons c rest ih =>
    intro h
    simp only [pyContains, Bool.or_eq_false_iff] at h
    simp only [beforeFirst, h.1, Bool.false_eq_true, if_neg, not_false_iff]
    rw [ih h.2]

theorem beforeFirst_decomp (sep : List Char) :
    ∀ s, ∃ t, s = beforeFirst sep s ++ t := by
  intro s
  induction s with
  | nil => exact ⟨[], rfl⟩
  | cons c rest ih =>
    by_cases hp : sep.isPrefixOf (c :: rest) = true
    · exact ⟨c :: rest, by simp [beforeFirst, hp]⟩
    · obtain ⟨t, ht⟩ := ih
      refine ⟨t, ?_⟩
      simp only [beforeFirst, hp, Bool.false_eq_true, if_neg, not_false_iff,
        List.cons_append]
      rw [← ht]

theorem isPrefixOf_extend {l m : List Char} (t : List Char)
    (h : l.isPrefixOf m = true) : l.isPrefixOf (m ++ t) = true := by
  rw [isPrefixOf_eq_take] at h ⊢
  have hlen := length_le_of_isPrefixOf (isPrefixOf_eq_take.2 h)
  rw [List.take_append_eq_append_take, h]
  simp [Nat.sub_eq_zero_of_le hlen]

theorem pyContains_beforeFirst (sep : List Char) (hsep : sep ≠ []) :
    ∀ s, pyContains sep (beforeFirst sep s) = false := by
  intro s
  induction s with
  | nil =>
    show pyContains sep [] = false
    simp [pyContains, List.isEmpty_eq_false, hsep]
  | cons c rest ih =>
    by_cases hp : sep.isPrefixOf (c :: rest) = true
    · simp [beforeFirst, hp, pyContains, List.isEmpty_eq_false, hsep]
    · simp only [beforeFirst, hp, Bool.false_eq_true, if_neg, not_false_iff]
      simp only [pyContains, Bool.or_eq_false_iff]
      refine ⟨?_, ih⟩
      cases hq : sep.isPrefixOf (c :: beforeFirst sep rest) with
      | false => rfl
      | true =>
        exfalso
        obtain ⟨t, ht⟩ := beforeFirst_decomp sep rest
        have : sep.isPrefixOf (c :: rest) = true := by
          have h2 : (c :: beforeFirst sep rest) ++ t = c :: rest := by
            rw [List.cons_append, ← ht]
          rw [← h2]
          exact isPrefixOf_extend t hq
        simp [this] at hp

theorem pyContains_length_le (sep : List Char) :
    ∀ s, pyContains sep s = true → sep.length ≤ s.length := by
  intro s
  induction s with
  | nil =>
    intro h
    simp only [pyContains, List.isEmpty_iff] at h
    simp [h]
  | cons c rest ih =>
    intro h
    simp only [pyContains, Bool.or_eq_true] at h
    rcases h with h | h
    · exact length_le_of_isPrefixOf h
    · have := ih h
      simp only [List.length_cons]
      omega

theorem pySplitAux_getD0 (sep : List Char) (hsep : sep ≠ []) :
    ∀ fuel s, 0 < fuel → (pySplitAux fuel sep s).getD 0 [] = beforeFirst sep s := by
  intro fuel s hf
  cases fuel with
  | zero => omega
  | succ f =>
    have hie : sep.isEmpty = false := List.isEmpty_eq_false.2 hsep
    by_cases hc : pyContains sep s = true
    · simp [pySplitAux, hie, hc]
    · simp only [Bool.not_eq_true] at hc
      simp [pySplitAux, hie, hc, beforeFirst_not_contains sep s hc]

theorem pySplit_getD0 (sep s : List Char) (hsep : sep ≠ []) :
    (pySplit sep s).getD 0 [] = beforeFirst sep s :=
  pySplitAux_getD0 sep hsep (s.length + 1) s (by omega)

theorem pySplitAux_getD1 (sep : List Char) (hsep : sep ≠ []) :
    ∀ fuel s, s.length < fuel → pyContains sep s = true →
      (pySplitAux fuel sep s).getD 1 [] = beforeFirst sep (afterFirst sep s) := by
  intro fuel s hf hc
  cases fuel with
  | zero => omega
  | succ f =>
    have hie : sep.isEmpty = false := List.isEmpty_eq_false.2 hsep
    have hslen : 1 ≤ sep.length := by
      cases sep with
      | nil => exact absurd rfl hsep
      | cons a as => simp
    have hfpos : 0 < f := by
      have := pyContains_length_le sep s hc
      omega
    simp only [pySplitAux, hie, Bool.false_eq_true, if_neg, not_false_iff, hc, if_true]
    show (pySplitAux f sep (afterFirst sep s)).getD 0 [] = _
    exact pySplitAux_getD0 sep hsep f (afterFirst sep s) hfpos

theorem pySplit_getD1 (sep s : List Char) (hsep : sep ≠ [])
    (hc : pyContains sep s = true) :
    (pySplit sep s).getD 1 [] = beforeFirst sep (afterFirst sep s) :=
  pySplitAux_getD1 sep hsep (s.length + 1) s (by omega) hc

theorem fence3_eq : fence3 = [Char.ofNat 96, Char.ofNat 96, Char.ofNat 96] := rfl

theorem fenceJson_eq : fenceJson = fence3 ++ ("json".toList) := rfl

theorem pyContains_fence3_of_fenceJson :
    ∀ text, pyContains fenceJson text = true → pyContains fence3 text = true := by
  intro text
  induction text with
  | nil =>
    intro h
    simp only [pyContains, List.isEmpty_iff] at h
    exact absurd h (by decide)
  | cons c rest ih =>
    intro h
    simp only [pyContains, Bool.or_eq_true] at h ⊢
    rcases h with h | h
    · left
      rw [isPrefixOf_eq_take] at h ⊢
      have h7 : List.take 7 (c :: rest) = fenceJson := h
      show List.take 3 (c :: rest) = fence3
      calc List.take 3 (c :: rest) = List.take (3 ⊓ 7) (c :: rest) := by norm_num
        _ = List.take 3 (List.take 7 (c :: rest)) := (List.take_take 3 7 _).symm
        _ = List.take 3 fenceJson := by rw [h7]
        _ = fence3 := rfl
    · exact Or.inr (ih h)

/-! ## Claim C2 (corrected): the extraction priority order -/

/-- C2 counterexample: on `"```json{}`````json"` the code parses the
split-based candidate `"{}``"` (between the first and second `"```json"`
markers) and raises a decode error, while the claim's step (2) — the
first json-fenced segment's content, `"{}"` — parses to the empty
object. -/
theorem extract_json_fence_cex :
    extract_json_from_text ("```json\x7b\x7d`````json".toList) = .error .decodeError ∧
    extractJsonClaimC2 ("```json\x7b\x7d`````json".toList) = .ok (Json.obj .nil) :=
  ⟨rfl, rfl⟩

/-- C2 amended: the priority order is (1) direct strict parse; (2) if
`"```json"` occurs, parse the stripped substring between its first and
second occurrences (to the end if none), truncated at the first `"```"`
inside it; (3) otherwise if `"```"` occurs, parse the first fenced
segment's stripped content; (4) otherwise parse the substring from the
first `{` to the last `}`. -/
theorem extract_json_from_text_algorithm :
    ∀ text, extract_json_from_text text = extractJsonAmended text := by
  intro text
  cases hl : json_loads text with
  | some v => simp [extract_json_from_text, extractJsonAmended, hl]
  | none =>
    have hbb : ∀ X, beforeFirst fence3 (beforeFirst fence3 X) = beforeFirst fence3 X :=
      fun X => beforeFirst_not_contains _ _ (pyContains_beforeFirst fence3 (by decide) X)
    by_cases hj : pyContains fenceJson text = true
    · simp only [extract_json_from_text, extractJsonAmended, hl, hj, if_true]
      rw [pySplit_getD1 fenceJson text (by decide) hj,
        pySplit_getD0 fence3 _ (by decide)]
    · have hj' : pyContains fenceJson text = false := by simpa using hj
      by_cases h3 : pyContains fence3 text = true
      · simp only [extract_json_from_text, extractJsonAmended, hl, hj',
          Bool.false_eq_true, if_neg, not_false_iff, h3, if_true]
        rw [pySplit_getD1 fence3 text (by decide) h3,
          pySplit_getD0 fence3 _ (by decide), hbb]
      · have h3' : pyContains fence3 text = false := by simpa using h3
        simp [extract_json_from_text, extractJsonAmended, hl, hj', h3']

/-! ## Claim C3 (corrected): the failure modes -/

theorem parseLocated_ne_noJsonFound (cand : List Char) :
    parseLocated cand ≠ .error .noJsonFound := by
  unfold parseLocated
  cases json_loads cand <;> simp

/-- C3 counterexample: on `"``` x ```"` no JSON object or array can be
located, yet the extractor fails with the `json.loads` decode error on
the fenced candidate `"x"`, not with the `ValueError("No JSON found in
response")` the claim makes the only failure mode. -/
theorem extract_json_decode_error_cex :
    extract_json_from_text ("``` x ```".toList) = .error .decodeError ∧
    PyErr.decodeError ≠ PyErr.noJsonFound :=
  ⟨rfl, by decide⟩

/-- C3 amended: `extract_json_from_text` raises the NoJsonFound
`ValueError` exactly when the direct parse fails, no fence marker
occurs, and no substring from a first `{` to a later last `}` exists;
when a candidate substring is located but fails strict parsing, the
failure is a `json.JSONDecodeError` instead, so NoJsonFound is not the
only failure mode. -/
theorem extract_json_noJsonFound_iff :
    ∀ text : List Char,
      extract_json_from_text text = .error .noJsonFound ↔
        (json_loads text = none ∧ pyContains fence3 text = false ∧
          (pyFind lbrace text = -1 ∨
            pyRfind rbrace text + 1 ≤ pyFind lbrace text)) := by
  intro text
  cases hl : json_loads text with
  | some v => simp [extract_json_from_text, hl]
  | none =>
    by_cases hj : pyContains fenceJson text = true
    · have h3 := pyContains_fence3_of_fenceJson text hj
      simp [extract_json_from_text, hl, hj, parseLocated_ne_noJsonFound, h3]
    · have hj' : pyContains fenceJson text = false := by simpa using hj
      by_cases h3 : pyContains fence3 text = true
      · simp [extract_json_from_text, hl, hj', h3, parseLocated_ne_noJsonFound]
      · have h3' : pyContains fence3 text = false := by simpa using h3
        by_cases hbr : pyFind lbrace text ≠ -1 ∧
            pyFind lbrace text < pyRfind rbrace text + 1
        · simp [extract_json_from_text, hl, hj', h3', hbr, parseLocated_ne_noJsonFound]
        · simp [extract_json_from_text, hl, hj', h3', hbr]
          omega

/-! ## Fenced-wrapper lemmas for the round-trip claim -/

theorem parseVal_backtick (fuel : Nat) (r : List Char) :
    parseVal fuel (Char.ofNat 96 :: r) = none := by
  cases fuel with
  | zero => rfl
  | succ f => rfl

theorem json_loads_fenceWrap (s : List Char) : json_loads (fenceWrap s) = none := by
  have h : fenceWrap s =
      Char.ofNat 96 :: (("``json\n".toList) ++ (s ++ ("\n```".toList))) := rfl
  simp only [json_loads]
  rw [h, parseVal_backtick]

theorem pyContains_self_append (a : Char) (as x : List Char) :
    pyContains (a :: as) ((a :: as) ++ x) = true := by
  have h := isPrefixOf_self_append (a :: as) x
  simp only [List.cons_append] at h ⊢
  simp [pyContains, h]

theorem fenceWrap_decomp (s : List Char) :
    fenceWrap s = fenceJson ++ ('\n' :: (s ++ ('\n' :: fence3))) := by
  have e1 : ("```json\n".toList) = fenceJson ++ ['\n'] := rfl
  have e2 : ("\n```".toList) = '\n' :: fence3 := rfl
  show ("```json\n".toList) ++ s ++ ("\n```".toList) = _
  rw [e1, e2]
  simp [List.append_assoc]

theorem contains_fenceJson_fenceWrap (s : List Char) :
    pyContains fenceJson (fenceWrap s) = true := by
  rw [fenceWrap_decomp]
  exact pyContains_self_append (Char.ofNat 96) ("``json".toList) _

theorem afterFirst_self (a : Char) (as x : List Char) :
    afterFirst (a :: as) ((a :: as) ++ x) = x := by
  have h := isPrefixOf_self_append (a :: as) x
  simp only [List.cons_append] at h ⊢
  simp only [afterFirst, h, if_true]
  show (a :: (as ++ x)).drop (a :: as).length = x
  simp only [List.length_cons, List.drop_succ_cons]
  exact List.drop_left as x

theorem afterFirst_fenceWrap (s : List Char) :
    afterFirst fenceJson (fenceWrap s) = '\n' :: (s ++ ('\n' :: fence3)) := by
  rw [fenceWrap_decomp]
  exact afterFirst_self (Char.ofNat 96) ("``json".toList) _

theorem fence3_chars :
    fence3 = Char.ofNat 96 :: Char.ofNat 96 :: Char.ofNat 96 :: [] := rfl

theorem fenceJson_chars :
    fenceJson = Char.ofNat 96 :: Char.ofNat 96 :: Char.ofNat 96 ::
      'j' :: 's' :: 'o' :: 'n' :: [] := rfl

theorem pyContains_fence3_append (c : Char) (hc : c ≠ Char.ofNat 96) :
    ∀ s t, pyContains fence3 (s ++ c :: t) =
      (pyContains fence3 s || pyContains fence3 (c :: t)) := by
  have hbc : (Char.ofNat 96 == c) = false := beq_eq_false_iff_ne.2 (Ne.symm hc)
  intro s
  induction s with
  | nil =>
    intro t
    show pyContains fence3 (c :: t) = (pyContains fence3 [] || pyContains fence3 (c :: t))
    rw [show pyContains fence3 [] = false from rfl, Bool.false_or]
  | cons a s' ih =>
    intro t
    have hpre : fence3.isPrefixOf (a :: (s' ++ c :: t)) = fence3.isPrefixOf (a :: s') := by
      cases s' with
      | nil => simp [fence3_chars, List.isPrefixOf, hbc]
      | cons a2 s'' =>
        cases s'' with
        | nil => simp [fence3_chars, List.isPrefixOf, hbc]
        | cons a3 s''' => simp [fence3_chars, List.isPrefixOf, nil_isPrefixOf]
    show (fence3.isPrefixOf (a :: (s' ++ c :: t)) || pyContains fence3 (s' ++ c :: t)) =
      ((fence3.isPrefixOf (a :: s') || pyContains fence3 s') || pyContains fence3 (c :: t))
    rw [hpre, ih t, Bool.or_assoc]

theorem isPrefixOf_append_left :
    ∀ l1 l2 m : List Char, (l1 ++ l2).isPrefixOf m = true → l1.isPrefixOf m = true := by
  intro l1
  induction l1 with
  | nil => intro l2 m _; exact nil_isPrefixOf m
  | cons a l1' ih =>
    intro l2 m h
    cases m with
    | nil => simp [List.isPrefixOf] at h
    | cons b bs =>
      simp only [List.cons_append, List.isPrefixOf, Bool.and_eq_true] at h ⊢
      exact ⟨h.1, ih l2 bs h.2⟩

theorem beforeFirst_fenceJson_eq :
    ∀ body, pyContains fence3 body = false →
      beforeFirst fenceJson (body ++ fence3) = body ++ fence3 := by
  intro body
  induction body with
  | nil => intro _; rfl
  | cons a body' ih =>
    intro hb
    simp only [pyContains, Bool.or_eq_false_iff] at hb
    obtain ⟨hp, hrest⟩ := hb
    have hnp : fenceJson.isPrefixOf (a :: (body' ++ fence3)) = false := by
      rcases body' with _ | ⟨b1, _ | ⟨b2, _ | ⟨b3, _ | ⟨b4, _ | ⟨b5, _ | ⟨b6, rest'⟩⟩⟩⟩⟩⟩
      · simp [fenceJson_chars, fence3_chars, List.isPrefixOf]
      · simp [fenceJson_chars, fence3_chars, List.isPrefixOf]
      · simp [fenceJson_chars, fence3_chars, List.isPrefixOf]
      · simp [fenceJson_chars, fence3_chars, List.isPrefixOf]
      · simp [fenceJson_chars, fence3_chars, List.isPrefixOf]
      · simp [fenceJson_chars, fence3_chars, List.isPrefixOf]
      · cases h1 : (Char.ofNat 96 == a) <;> cases h2 : (Char.ofNat 96 == b1) <;>
          cases h3 : (Char.ofNat 96 == b2) <;>
            simp_all [fenceJson_chars, fence3_chars, List.isPrefixOf, nil_isPrefixOf]
    show beforeFirst fenceJson (a :: (body' ++ fence3)) = a :: (body' ++ fence3)
    simp only [beforeFirst, hnp, Bool.false_eq_true, if_neg, not_false_iff]
    rw [ih hrest]

theorem beforeFirst_fence3_append :
    ∀ (body t : List Char),
      pyContains fence3 (body ++ List.take 2 t) = false →
      beforeFirst fence3 (body ++ t) = body ++ beforeFirst fence3 t := by
  intro body
  induction body with
  | nil => intro t _; rfl
  | cons a body' ih =>
    intro t hb
    have hb' : (fence3.isPrefixOf (a :: (body' ++ List.take 2 t)) ||
        pyContains fence3 (body' ++ List.take 2 t)) = false := hb
    have hp2 := (Bool.or_eq_false_iff.1 hb').1
    have hrest := (Bool.or_eq_false_iff.1 hb').2
    have hp : fence3.isPrefixOf (a :: (body' ++ t)) = false := by
      cases hcase : fence3.isPrefixOf (a :: (body' ++ t)) with
      | false => rfl
      | true =>
        exfalso
        have hcase' : List.take 3 (a :: (body' ++ t)) = fence3 :=
          isPrefixOf_eq_take.1 hcase
        have heq : List.take 3 (a :: (body' ++ List.take 2 t)) =
            List.take 3 (a :: (body' ++ t)) := by
          simp only [List.take_succ_cons]
          congr 1
          rw [List.take_append_eq_append_take, List.take_append_eq_append_take,
            List.take_take, inf_of_le_left (Nat.sub_le 2 body'.length)]
        have h3' : List.take fence3.length (a :: (body' ++ List.take 2 t)) = fence3 := by
          rw [show fence3.length = 3 from rfl, heq]
          exact hcase'
        have hcontra := isPrefixOf_eq_take.2 h3'
        rw [hcontra] at hp2
        exact absurd hp2 (by decide)
    show beforeFirst fence3 (a :: (body' ++ t)) = a :: (body' ++ beforeFirst fence3 t)
    simp only [beforeFirst, hp, Bool.false_eq_true, if_neg, not_false_iff]
    rw [ih t hrest]

theorem digit_bounds (c : Char) (h : c.isDigit = true) : 48 ≤ c.toNat ∧ c.toNat ≤ 57 := by
  simp only [Char.isDigit, Bool.and_eq_true, decide_eq_true_eq] at h
  exact ⟨h.1, h.2⟩

theorem isStripWs_of_isDigit (c : Char) (h : c.isDigit = true) : isStripWs c = false := by
  have h' := digit_bounds c h
  simp only [isStripWs, Bool.or_eq_false_iff, decide_eq_false_iff_not]
  refine ⟨⟨⟨⟨⟨?_, ?_⟩, ?_⟩, ?_⟩, ?_⟩, ?_⟩
  · intro e; subst e; exact absurd h'.1 (by decide)
  · intro e; subst e; exact absurd h'.1 (by decide)
  · intro e; subst e; exact absurd h'.1 (by decide)
  · intro e; subst e; exact absurd h'.1 (by decide)
  · intro e; omega
  · intro e; omega

theorem pyStrip_sandwich (c c2 : Char) (t t2 : List Char)
    (hc : isStripWs c = false) (hc2 : isStripWs c2 = false)
    (hrev : (c :: t).reverse = c2 :: t2) :
    pyStrip ('\x0a' :: ((c :: t) ++ ['\x0a'])) = c :: t := by
  unfold pyStrip
  have d1 : List.dropWhile isStripWs ('\x0a' :: ((c :: t) ++ ['\x0a'])) =
      (c :: t) ++ ['\x0a'] := by
    rw [List.dropWhile_cons]
    rw [if_pos (by decide), List.cons_append, List.dropWhile_cons]
    simp [hc]
  rw [d1]
  have d2 : ((c :: t) ++ ['\x0a']).reverse = '\x0a' :: (c2 :: t2) := by
    rw [List.reverse_append, hrev]
    rfl
  rw [d2]
  have d3 : List.dropWhile isStripWs ('\x0a' :: (c2 :: t2)) = c2 :: t2 := by
    rw [List.dropWhile_cons]
    rw [if_pos (by decide)]
    rw [List.dropWhile_cons]
    simp [hc2]
  rw [d3, ← hrev, List.reverse_reverse]

theorem json_dumps_bounds (v : Json) :
    ∃ c t c2 t2, json_dumps v = c :: t ∧ (json_dumps v).reverse = c2 :: t2 ∧
      isStripWs c = false ∧ isStripWs c2 = false := by
  cases v with
  | null => exact ⟨'n', "ull".toList, 'l', "lun".toList, rfl, rfl, by decide, by decide⟩
  | bool b =>
    cases b with
    | true => exact ⟨'t', "rue".toList, 'e', "urt".toList, rfl, rfl, by decide, by decide⟩
    | false => exact ⟨'f', "alse".toList, 'e', "slaf".toList, rfl, rfl, by decide, by decide⟩
  | num n =>
    by_cases hn : n < 0
    · have hser : json_dumps (Json.num n) = '-' :: natDigits n.natAbs := by
        show (if n < 0 then '-' :: natDigits n.natAbs else natDigits n.toNat) = _
        rw [if_pos hn]
      obtain ⟨c2, t2', hrev2⟩ := List.exists_cons_of_ne_nil
        (show (natDigits n.natAbs).reverse ≠ [] by simpa using natDigits_ne_nil n.natAbs)
      have hc2d := natDigits_all_digits n.natAbs c2
        (by rw [← List.mem_reverse, hrev2]; exact List.mem_cons_self _ _)
      refine ⟨'-', natDigits n.natAbs, c2, t2' ++ ['-'], hser, ?_, by decide,
        isStripWs_of_isDigit c2 hc2d⟩
      rw [hser, List.reverse_cons, hrev2]
      rfl
    · have hser : json_dumps (Json.num n) = natDigits n.toNat := by
        show (if n < 0 then '-' :: natDigits n.natAbs else natDigits n.toNat) = _
        rw [if_neg hn]
      obtain ⟨c, t, hct⟩ := List.exists_cons_of_ne_nil (natDigits_ne_nil n.toNat)
      obtain ⟨c2, t2, hrev2⟩ := List.exists_cons_of_ne_nil
        (show (natDigits n.toNat).reverse ≠ [] by simpa using natDigits_ne_nil n.toNat)
      have hcd := natDigits_all_digits n.toNat c
        (by rw [hct]; exact List.mem_cons_self _ _)
      have hc2d := natDigits_all_digits n.toNat c2
        (by rw [← List.mem_reverse, hrev2]; exact List.mem_cons_self _ _)
      exact ⟨c, t, c2, t2, by rw [hser, hct], by rw [hser, hrev2],
        isStripWs_of_isDigit c hcd, isStripWs_of_isDigit c2 hc2d⟩
  | str s =>
    refine ⟨'"', escapeStr s ++ ['"'], '"', (escapeStr s).reverse ++ ['"'], rfl, ?_,
      by decide, by decide⟩
    show ('"' :: (escapeStr s ++ ['"'])).reverse = '"' :: ((escapeStr s).reverse ++ ['"'])
    rw [List.reverse_cons, List.reverse_append]
    rfl
  | arr xs =>
    cases xs with
    | nil => exact ⟨'[', [']'], ']', ['['], rfl, rfl, by decide, by decide⟩
    | cons w tl =>
      have he : json_dumps (Json.arr (JsonList.cons w tl)) =
          '[' :: (serList false 1 (JsonList.cons w tl) ++ [']']) := by
        simp [json_dumps, serVal, nlInd]
      refine ⟨'[', serList false 1 (JsonList.cons w tl) ++ [']'],
        ']', (serList false 1 (JsonList.cons w tl)).reverse ++ ['['], he, ?_,
        by decide, by decide⟩
      rw [he, List.reverse_cons, List.reverse_append]
      rfl
  | obj kvs =>
    cases kvs with
    | nil => exact ⟨lbrace, [rbrace], rbrace, [lbrace], rfl, rfl, by decide, by decide⟩
    | cons k w tl =>
      have he : json_dumps (Json.obj (JsonObj.cons k w tl)) =
          lbrace :: (serObj false 1 (JsonObj.cons k w tl) ++ [rbrace]) := by
        simp [json_dumps, serVal, nlInd]
      refine ⟨lbrace, serObj false 1 (JsonObj.cons k w tl) ++ [rbrace],
        rbrace, (serObj false 1 (JsonObj.cons k w tl)).reverse ++ [lbrace], he, ?_,
        by decide, by decide⟩
      rw [he, List.reverse_cons, List.reverse_append]
      rfl

theorem pyContains_fence3_cons (c : Char) (hc : (Char.ofNat 96 == c) = false)
    (Y : List Char) : pyContains fence3 (c :: Y) = pyContains fence3 Y := by
  show (fence3.isPrefixOf (c :: Y) || pyContains fence3 Y) = pyContains fence3 Y
  have h : fence3.isPrefixOf (c :: Y) = false := by
    show ((Char.ofNat 96 == c) && ([Char.ofNat 96, Char.ofNat 96].isPrefixOf Y)) = false
    rw [hc, Bool.false_and]
  rw [h, Bool.false_or]

/-! ## Claim C5 (corrected): the round trip -/

/-- C5 counterexample: for the JSON string of three backtick characters,
the direct round trip succeeds but the json-fenced round trip does not:
the backticks inside the serialized string are taken as the closing fence
marker, the extracted candidate is just the opening quote, and the
extractor raises a decode error instead of returning the value. -/
theorem extract_json_fenced_roundtrip_cex :
    extract_json_from_text (fenceWrap (json_dumps (Json.str fence3))) =
      .error .decodeError ∧
    (Except.error PyErr.decodeError : Except PyErr Json) ≠ .ok (Json.str fence3) :=
  ⟨rfl, by intro h; exact Except.noConfusion h⟩

/-- C5 amended: for every JSON value v, `extract_json_from_text` of the
compact serialization of v returns v (the direct strict parse
short-circuits, so the extractor is idempotent on already-valid JSON);
wrapping the serialization in a json-tagged code fence preserves this
only when the serialization does not itself contain the fence marker
`\x60\x60\x60` — otherwise the first interior marker truncates the
candidate and the round trip can fail. -/
theorem extract_json_roundtrip : ∀ v : Json,
    extract_json_from_text (json_dumps v) = .ok v ∧
    (pyContains fence3 (json_dumps v) = false →
      extract_json_from_text (fenceWrap (json_dumps v)) = .ok v) := by
  intro v
  constructor
  · simp [extract_json_from_text, json_loads_dumps]
  · intro hs
    have hbody0 : pyContains fence3 ('\x0a' :: (json_dumps v ++ ['\x0a'])) = false := by
      rw [pyContains_fence3_cons '\x0a' (by decide),
        pyContains_fence3_append '\x0a' (by decide) (json_dumps v) [], hs]
      decide
    have hbody : pyContains fence3
        (('\x0a' :: (json_dumps v ++ ['\x0a'])) ++ List.take 2 fence3) = false := by
      have hsh : (('\x0a' :: (json_dumps v ++ ['\x0a'])) ++ List.take 2 fence3) =
          '\x0a' :: (json_dumps v ++ ('\x0a' :: List.take 2 fence3)) := by simp
      rw [hsh, pyContains_fence3_cons '\x0a' (by decide),
        pyContains_fence3_append '\x0a' (by decide) (json_dumps v) (List.take 2 fence3),
        hs]
      decide
    have hcand : beforeFirst fence3
        (beforeFirst fenceJson (afterFirst fenceJson (fenceWrap (json_dumps v)))) =
        '\x0a' :: (json_dumps v ++ ['\x0a']) := by
      rw [afterFirst_fenceWrap]
      have hsh2 : ('\x0a' :: (json_dumps v ++ ('\x0a' :: fence3))) =
          ('\x0a' :: (json_dumps v ++ ['\x0a'])) ++ fence3 := by simp
      rw [hsh2, beforeFirst_fenceJson_eq _ hbody0,
        beforeFirst_fence3_append _ fence3 hbody]
      rw [show beforeFirst fence3 fence3 = ([] : List Char) from rfl]
      simp
    have hl2 : json_loads (fenceWrap (json_dumps v)) = none := json_loads_fenceWrap _
    have hjf : pyContains fenceJson (fenceWrap (json_dumps v)) = true :=
      contains_fenceJson_fenceWrap _
    simp only [extract_json_from_text, hl2, hjf, if_true]
    rw [pySplit_getD1 fenceJson _ (by decide) hjf, pySplit_getD0 fence3 _ (by decide),
      hcand]
    obtain ⟨c, t, c2, t2, hhead, hrev, hcws, hc2ws⟩ := json_dumps_bounds v
    rw [hhead] at hrev
    rw [hhead, pyStrip_sandwich c c2 t t2 hcws hc2ws hrev, ← hhead]
    simp [parseLocated, json_loads_dumps]
